import Mathlib

/-!
# Verification of the `sendhelp` interpreter (`src/index.ts`)

Shallow embedding of the lexer-adjacent arrow decoder, the parser, the
block/arrow data model, the built-in command dispatch, and the move
resolution of the concurrent execution engine of the single-file
TypeScript interpreter, together with theorems settling the frozen
claims about its specification.

Conventions:
* JS strings are modelled as `Str := List Char`; JS string concatenation,
  `split('\n')`, `join('\n')` and equality are modelled exactly.
* JS numbers are modelled by `JSNum` (NaN, the two infinities, negative
  zero, and finite values as exact rationals).  IEEE special-value
  behaviour (NaN propagation, signed zero, division by zero) is modelled
  exactly; rounding of non-integral finite values is not modelled, and no
  theorem in this file evaluates a non-integral finite result.
* Fallible code returns `Except PErr` with one constructor per `panic`
  message of the source.
-/

namespace Sendhelp

/-- JS strings, modelled as lists of characters. -/
abbrev Str := List Char

/-- JS `String.prototype.split('\n')`: splits on every newline; the empty
string yields `[""]`. -/
def splitNl : Str → List Str
  | [] => [[]]
  | c :: cs =>
    if c = '\n' then [] :: splitNl cs
    else
      match splitNl cs with
      | [] => [[c]]
      | h :: t => (c :: h) :: t

/-- JS `Array.prototype.join('\n')`. -/
def joinNl : List Str → Str
  | [] => []
  | [x] => x
  | x :: xs => x ++ '\n' :: joinNl xs

/-! ## Arrow decoder (`parseArrow`, src/index.ts lines 143-149)

The source packs an arrow into a triple `[ArrowType, heads, dashes]` where
`ArrowType` is the bit-packed number
`(heads == 1 ? 0 : 1) * 2 + (contains '<' ? 0 : 1)`:
bit 1 (`typ % 2`) is the direction (0 = left, 1 = right), bit 2
(`typ / 2`) is the action (0 = send, 1 = jump).  `heads` is the count of
non-dash glyphs (the jump length), `dashes` the count of dash glyphs
(the importance / weight). -/

/-- The decoded arrow triple `[ArrowType, number, number]` of the source. -/
structure Arrow where
  typ : Nat
  mag : Nat
  wt : Nat
deriving DecidableEq, Repr

/-- `parseArrow` (src/index.ts lines 143-149): removing every dash glyph
leaves the non-dash glyphs (the head count), removing every non-dash
glyph leaves the dash glyphs (the dash count), and `includes` is the
membership test. -/
def parseArrow (glyphs : Str) : Arrow :=
  { typ := (if (glyphs.filter (· ≠ '-')).length = 1 then 0 else 1) * 2 +
      (if glyphs.contains '<' then 0 else 1)
    mag := (glyphs.filter (· ≠ '-')).length
    wt := (glyphs.filter (· = '-')).length }

/-- A well-formed arrow glyph run, as guaranteed by the lexer
(src/index.ts line 167): one-or-more `<` followed by zero-or-more `-`,
or zero-or-more `-` followed by one-or-more `>`. -/
def WfArrowRun (glyphs : Str) : Prop :=
  (∃ k m, 1 ≤ k ∧ glyphs = List.replicate k '<' ++ List.replicate m '-') ∨
  (∃ k m, 1 ≤ k ∧ glyphs = List.replicate m '-' ++ List.replicate k '>')

/-! ## JS number model

The source applies the host's `Number`, `String`, `+`, `/` and `%` to
streams and arguments (src/index.ts lines 453-468).  These are modelled
by `JSNum`: NaN, the two infinities, negative zero, and finite values as
exact rationals.  All IEEE special-value behaviour used by the claims
(NaN propagation, signed zeros, division by zero) is modelled exactly;
rounding of finite values to doubles is not modelled, and no theorem in
this file evaluates an operation whose JS result would be rounded. -/

/-- A JS number: NaN, infinities, negative zero, or a finite value. -/
inductive JSNum where
  | nan
  | inf
  | negInf
  | negZero
  | fin (q : ℚ)
deriving DecidableEq, Repr

/-- Whitespace trimming performed by `Number(string)`. -/
def jsTrim (s : Str) : Str :=
  ((s.dropWhile Char.isWhitespace).reverse.dropWhile Char.isWhitespace).reverse

/-- Value of a digit character. -/
def digVal (c : Char) : Nat := c.toNat - '0'.toNat

/-- Value of a nonempty all-digit run, `none` otherwise. -/
def digitsVal? (cs : Str) : Option Nat :=
  if cs = [] ∨ ¬ cs.all Char.isDigit then none
  else some (cs.foldl (fun a c => a * 10 + digVal c) 0)

/-- Value of a digit run, empty allowed (contributes 0). -/
def digitsVal (cs : Str) : Nat := cs.foldl (fun a c => a * 10 + digVal c) 0

/-- Decimal mantissa of the `StrUnsignedDecimalLiteral` grammar:
`digits`, `digits.digits`, `digits.`, or `.digits`. -/
def parseMantissa (cs : Str) : Option ℚ :=
  let ip := cs.takeWhile Char.isDigit
  let rest := cs.dropWhile Char.isDigit
  match rest with
  | [] => if ip = [] then none else some (digitsVal ip : ℚ)
  | '.' :: frac =>
    if frac.all Char.isDigit then
      if ip = [] ∧ frac = [] then none
      else some ((digitsVal ip : ℚ) + (digitsVal frac : ℚ) / (10 : ℚ) ^ frac.length)
    else none
  | _ => none

/-- Unsigned decimal literal with optional exponent part. -/
def parseUnsignedDec (cs : Str) : Option ℚ :=
  let m := cs.takeWhile (fun c => c ≠ 'e' ∧ c ≠ 'E')
  let e := cs.dropWhile (fun c => c ≠ 'e' ∧ c ≠ 'E')
  match e with
  | [] => parseMantissa m
  | _ :: etail =>
    match parseMantissa m with
    | none => none
    | some q =>
      let se : Int × Str :=
        match etail with
        | '+' :: r => (1, r)
        | '-' :: r => (-1, r)
        | r => (1, r)
      match digitsVal? se.2 with
      | none => none
      | some v => some (q * (10 : ℚ) ^ (se.1 * (v : Int)))

/-- Digit value in the given radix, `none` for an invalid digit. -/
def radixDigit? (radix : Nat) (c : Char) : Option Nat :=
  let v : Option Nat :=
    if '0' ≤ c ∧ c ≤ '9' then some (c.toNat - '0'.toNat)
    else if 'a' ≤ c ∧ c ≤ 'f' then some (c.toNat - 'a'.toNat + 10)
    else if 'A' ≤ c ∧ c ≤ 'F' then some (c.toNat - 'A'.toNat + 10)
    else none
  match v with
  | some v => if v < radix then some v else none
  | none => none

/-- Value of a nonempty digit run in the given radix. -/
def radixVal? (radix : Nat) (cs : Str) : Option Nat :=
  if cs = [] then none
  else
    cs.foldl
      (fun a c =>
        match a, radixDigit? radix c with
        | some a, some d => some (a * radix + d)
        | _, _ => none)
      (some 0)

/-- The host's `Number(string)` coercion: trimmed empty string is +0;
`0x`/`0o`/`0b` radix literals (unsigned); otherwise an optionally signed
decimal literal or `Infinity`; anything else is NaN. -/
def jsNumber (s : Str) : JSNum :=
  let t := jsTrim s
  if t = [] then .fin 0
  else if t.take 2 = ['0', 'x'] ∨ t.take 2 = ['0', 'X'] then
    match radixVal? 16 (t.drop 2) with
    | some n => .fin n
    | none => .nan
  else if t.take 2 = ['0', 'o'] ∨ t.take 2 = ['0', 'O'] then
    match radixVal? 8 (t.drop 2) with
    | some n => .fin n
    | none => .nan
  else if t.take 2 = ['0', 'b'] ∨ t.take 2 = ['0', 'B'] then
    match radixVal? 2 (t.drop 2) with
    | some n => .fin n
    | none => .nan
  else
    let sr : Int × Str :=
      match t with
      | '+' :: r => (1, r)
      | '-' :: r => (-1, r)
      | r => (1, r)
    if sr.2 = "Infinity".toList then (if sr.1 = 1 then .inf else .negInf)
    else
      match parseUnsignedDec sr.2 with
      | none => .nan
      | some q =>
        if sr.1 = -1 then (if q = 0 then .negZero else .fin (-q)) else .fin q

/-- Decimal digits of a natural number. -/
def natDecimal (n : Nat) : Str := Nat.toDigits 10 n

/-- Decimal rendering of an integer. -/
def intDecimal (z : Int) : Str :=
  if z < 0 then '-' :: natDecimal z.natAbs else natDecimal z.natAbs

/-- Fractional digits of a rational in `[0, 1)`, at most `n` of them. -/
def fracDigits : Nat → ℚ → Str
  | 0, _ => []
  | n + 1, r =>
    if r = 0 then []
    else
      let r10 := r * 10
      let d := (⌊r10⌋ : Int).toNat
      Char.ofNat ('0'.toNat + d) :: fracDigits n (r10 - ⌊r10⌋)

/-- Decimal rendering of a non-integral finite value.  JS prints the
shortest decimal that round-trips through the IEEE double; that rounding
is not modelled: this renders the exact rational with at most 20
fractional digits (exact for short terminating decimals, which is the
only finite shape the source can print for the programs considered
here).  No theorem in this file evaluates this branch. -/
def ratDecimal (q : ℚ) : Str :=
  (if q < 0 then ['-'] else []) ++ natDecimal (⌊|q|⌋ : Int).toNat ++
    '.' :: fracDigits 20 (|q| - ⌊|q|⌋)

/-- The host's `String(number)` rendering.  `String(-0)` is `"0"`.
Exponential notation (for magnitudes at or above 1e21 or below 1e-7) is
not modelled; no theorem in this file evaluates such a value. -/
def jsString : JSNum → Str
  | .nan => "NaN".toList
  | .inf => "Infinity".toList
  | .negInf => "-Infinity".toList
  | .negZero => "0".toList
  | .fin q => if q.den = 1 then intDecimal q.num else ratDecimal q

/-- IEEE addition on JS numbers (used by `sum`). -/
def jsAdd : JSNum → JSNum → JSNum
  | .nan, _ => .nan
  | _, .nan => .nan
  | .inf, .negInf => .nan
  | .negInf, .inf => .nan
  | .inf, _ => .inf
  | _, .inf => .inf
  | .negInf, _ => .negInf
  | _, .negInf => .negInf
  | .negZero, .negZero => .negZero
  | .negZero, .fin b => .fin b
  | .fin a, .negZero => .fin a
  | .fin a, .fin b => .fin (a + b)

/-- IEEE division on JS numbers (used by `div`).  The finite/finite
quotient is the exact rational; double rounding is not modelled. -/
def jsDiv : JSNum → JSNum → JSNum
  | .nan, _ => .nan
  | _, .nan => .nan
  | .inf, .inf => .nan
  | .inf, .negInf => .nan
  | .negInf, .inf => .nan
  | .negInf, .negInf => .nan
  | .inf, .negZero => .negInf
  | .inf, .fin b => if b < 0 then .negInf else .inf
  | .negInf, .negZero => .inf
  | .negInf, .fin b => if b < 0 then .inf else .negInf
  | .negZero, .inf => .negZero
  | .negZero, .negInf => .fin 0
  | .fin a, .inf => if a < 0 then .negZero else .fin 0
  | .fin a, .negInf => if a < 0 then .fin 0 else .negZero
  | .negZero, .negZero => .nan
  | .negZero, .fin b => if b = 0 then .nan else if b < 0 then .fin 0 else .negZero
  | .fin a, .negZero => if a = 0 then .nan else if a < 0 then .inf else .negInf
  | .fin a, .fin b =>
    if b = 0 then (if a = 0 then .nan else if a < 0 then .negInf else .inf)
    else if a = 0 ∧ b < 0 then .negZero
    else .fin (a / b)

/-- IEEE remainder on JS numbers (used by `mod`): result carries the
dividend's sign; the finite/finite case is exact. -/
def jsMod : JSNum → JSNum → JSNum
  | .nan, _ => .nan
  | _, .nan => .nan
  | .inf, _ => .nan
  | .negInf, _ => .nan
  | .negZero, .inf => .negZero
  | .negZero, .negInf => .negZero
  | .negZero, .negZero => .nan
  | .negZero, .fin b => if b = 0 then .nan else .negZero
  | .fin a, .inf => .fin a
  | .fin a, .negInf => .fin a
  | .fin _, .negZero => .nan
  | .fin a, .fin b =>
    if b = 0 then .nan
    else
      let t : ℤ := if 0 ≤ a / b then ⌊a / b⌋ else ⌈a / b⌉
      let r := a - b * t
      if r = 0 ∧ a < 0 then .negZero else .fin r

/-! ## Structural errors

One constructor per distinct `panic` message of the parser and the
extension-failure path of the engine (src/index.ts lines 124-136, 265,
277-283, 291-296, 314, 322-327, 494, 613). -/

/-- The fatal errors of the run (`panic` messages). -/
inductive PErr where
  | tokenAfterBlock
  | unterminatedBlock
  | emptyBlock
  | topLevelClose
  | arrowAfterArrow
  | nonJumpAtBorder
  | rightArrowAtLeftBorder
  | leftArrowAtRightBorder
  | topLevelArrows
  | extensionError (msg : Str)
  | outOfFuel
deriving DecidableEq, Repr

/-! ## Extension registry and built-in command dispatch -/

/-- An extension module (src/index.ts lines 13-17): a name, a version and
a command table mapping command names to handlers.  A handler either
produces a result string or fails with a message. -/
structure Extension where
  name : Str
  version : Str
  commands : List (Str × (Str → List Str → Except Str Str))

/-- src/index.ts line 19: the module-level extension registry, initially
empty. -/
def extensions : List Extension := []

/-- src/index.ts line 629: the exported `extend` function has an empty
body — it registers nothing and returns nothing. -/
def extend : Unit := ()

/-- Registry lookup of the default branch (src/index.ts lines 488-498):
scan the modules in registration order, use the first whose command
table contains the name. -/
def extLookup (name : Str) : Option (Str → List Str → Except Str Str) :=
  match extensions.find? (fun e => (e.commands.map Prod.fst).contains name) with
  | some e => (e.commands.find? (fun p => p.1 = name)).map Prod.snd
  | none => none

/-- The mutable data a task step works on: its stream, the shared global
storage (`FakeProcess.storage`), the program output accumulated in batch
mode (`output`), and the task's per-group output mapping entry for the
enclosing group (`map.get(this.block.parent)`, the only key a `print` of
this task's cursor can address). -/
structure ProcState where
  stream : Str
  storage : Str
  output : Str
  pending : Str
deriving DecidableEq, Repr

/-- `Number(arguments[0] || 0)` (src/index.ts lines 458, 465): an absent
or empty first argument is falsy and replaced by the number 0. -/
def divisorNum (args : List Str) : JSNum :=
  match args.head? with
  | none => .fin 0
  | some a => if a = [] then .fin 0 else jsNumber a

/-- The command dispatch of `FakeProcess.run` (src/index.ts lines
442-501).  `inputFn` models the external line-input collaborator.  `top`
tells whether the call block's parent group is the top-level group
(`this.block.parent?.parent` absent), which routes `print` to the batch
program output rather than to the per-group output mapping.  The `div`
and `mod` try/catch of the source is not reproduced because the guarded
operations never throw, so the catch branches are unreachable. -/
def execCall (inputFn : Str → Str) (top : Bool) (name : Str) (args : List Str)
    (st : ProcState) : Except PErr ProcState :=
  if name = "nothing".toList then .ok { st with stream := [] }
  else if name = "input".toList then
    .ok { st with stream := inputFn (st.stream ++ joinNl args) }
  else if name = "equals".toList then
    .ok { st with stream := if st.stream = joinNl args then "true".toList else "false".toList }
  else if name = "sum".toList then
    .ok { st with stream :=
            jsString ((jsNumber st.stream :: args.map jsNumber).foldl jsAdd (JSNum.fin 0)) }
  else if name = "div".toList then
    .ok { st with stream := jsString (jsDiv (jsNumber st.stream) (divisorNum args)) }
  else if name = "mod".toList then
    .ok { st with stream := jsString (jsMod (jsNumber st.stream) (divisorNum args)) }
  else if name = "loop".toList then
    .ok { st with storage := st.storage ++ '\n' :: joinNl (st.stream :: args) }
  else if name = "pop".toList then
    .ok { st with stream := (splitNl st.storage).getLast?.getD []
                , storage := joinNl (splitNl st.storage).dropLast }
  else if name = "done".toList then
    .ok { st with stream := if st.storage.length = 0 then "true".toList else "false".toList }
  else if name = "print".toList then
    if top then .ok { st with output := st.output ++ joinNl args ++ st.stream }
    else .ok { st with pending := st.pending ++ joinNl args ++ st.stream }
  else
    match extLookup name with
    | none => .ok st
    | some handler =>
      match handler st.stream args with
      | .ok r => .ok { st with stream := st.stream ++ r }
      | .error e => .error (.extensionError e)

/-- The built-in command names of the dispatch switch. -/
def builtinNames : List Str :=
  ["nothing".toList, "input".toList, "equals".toList, "sum".toList,
   "div".toList, "mod".toList, "loop".toList, "pop".toList,
   "done".toList, "print".toList]

/-! ## Tokens and blocks -/

/-- A token `[TokenType, string]` (src/index.ts line 41). -/
inductive Token where
  | instanceT (s : Str)
  | stringT (s : Str)
  | arrowT (s : Str)
  | bracketT (s : Str)
deriving DecidableEq, Repr

/-- A block of the parse tree: a `Call`, a `StringBlock`, or a
`BlockBranch` (src/index.ts lines 54-109), with the left/right border
descriptors of the base class.  The source's parent back-reference is
represented implicitly by the tree shape. -/
inductive Block where
  | call (name : Str) (args : List Str) (left right : Option Arrow)
  | strB (s : Str) (left right : Option Arrow)
  | branch (blocks : List Block) (inner : Option Arrow) (left right : Option Arrow)
deriving Repr

/-- The left border descriptor. -/
def Block.leftArrow : Block → Option Arrow
  | .call _ _ l _ => l
  | .strB _ l _ => l
  | .branch _ _ l _ => l

/-- The right border descriptor. -/
def Block.rightArrow : Block → Option Arrow
  | .call _ _ _ r => r
  | .strB _ _ r => r
  | .branch _ _ _ r => r

/-- Replace the left border descriptor. -/
def Block.setLeft : Block → Option Arrow → Block
  | .call n a _ r, l => .call n a l r
  | .strB s _ r, l => .strB s l r
  | .branch bs i _ r, l => .branch bs i l r

/-- Replace the right border descriptor. -/
def Block.setRight : Block → Option Arrow → Block
  | .call n a l _, r => .call n a l r
  | .strB s l _, r => .strB s l r
  | .branch bs i l _, r => .branch bs i l r

/-- Whether the block is a `Call` or `StringBlock` (not a group). -/
def Block.isLeaf : Block → Bool
  | .branch .. => false
  | _ => true

/-- A group while it is being parsed: its member list and its inner
descriptor.  (Its own left/right borders are attached by the enclosing
group's `append` when it becomes a member; the top-level group's stay
absent.) -/
structure GState where
  blocks : List Block
  inner : Option Arrow
deriving Repr

/-! ## Parser (src/index.ts lines 240-330) -/

/-- The matching-close scan of the brace-open case (src/index.ts lines
267-280): walk the remaining tokens keeping a nesting level, return the
span before the matching close and the tokens after it; `none` is the
unterminated-block error.  Non-open bracket tokens are closes (the lexer
only emits the two brace characters). -/
def findClose : List Token → Nat → Option (List Token × List Token)
  | [], _ => none
  | .bracketT s :: ts, level =>
    if s = "\x7b".toList then
      (findClose ts (level + 1)).map (fun p => (Token.bracketT s :: p.1, p.2))
    else if level = 0 then some ([], ts)
    else (findClose ts (level - 1)).map (fun p => (Token.bracketT s :: p.1, p.2))
  | t :: ts, level => (findClose ts level).map (fun p => (t :: p.1, p.2))

/-- Right border of the last member, absent for an empty member list. -/
def lastRight (bs : List Block) : Option Arrow :=
  match bs.getLast? with
  | none => none
  | some b => b.rightArrow

/-- `append` (src/index.ts lines 249-255): the new member's left border
is the previous member's right border, or the group's inner descriptor
when it is the first member. -/
def appendBlock (g : GState) (b : Block) : GState :=
  let l := match g.blocks.getLast? with
    | some p => p.rightArrow
    | none => g.inner
  { g with blocks := g.blocks ++ [b.setLeft l] }

/-- Set the right border of the last member. -/
def setLastRight (bs : List Block) (a : Arrow) : List Block :=
  match bs.getLast? with
  | none => bs
  | some b => bs.dropLast ++ [b.setRight a]

/-- JS `x || d` on an optional arrow-type number: `null`/`undefined` and
the number 0 are falsy (src/index.ts lines 322-327).  The falsiness of
arrow type 0 — a left-pointing send arrow — makes the border checks
treat such an arrow like an absent one. -/
def jsOrTyp (a : Option Arrow) (d : Nat) : Nat :=
  match a with
  | none => d
  | some ar => if ar.typ = 0 then d else ar.typ

/-- Left border of the first member, absent for an empty member list. -/
def firstLeft (bs : List Block) : Option Arrow :=
  match bs.head? with
  | none => none
  | some b => b.leftArrow

/-- The source's mode test `(typ || 2) / 2 < 0.7` (src/index.ts line
322), rendered fraction-free over the naturals: for a natural `t`,
`t / 2 < 7 / 10` over the reals iff `10 * t < 14`.  The lemma
`nonJumpTest_eq_ratTest` certifies the rendering against the
rational-division form. -/
def nonJumpTest (a : Option Arrow) : Bool :=
  10 * jsOrTyp a 2 < 14

/-- Border validation after a group's member list is finalized
(src/index.ts lines 320-328). -/
def borderCheck (g : GState) : Except PErr GState :=
  if g.blocks.length > 0 then
    if nonJumpTest (firstLeft g.blocks) || nonJumpTest (lastRight g.blocks) then
      .error .nonJumpAtBorder
    else if jsOrTyp (firstLeft g.blocks) 0 % 2 = 1 then
      .error .rightArrowAtLeftBorder
    else if jsOrTyp (lastRight g.blocks) 1 % 2 = 0 then
      .error .leftArrowAtRightBorder
    else .ok g
  else .ok g

/-- The shared body of the string/instance token case (src/index.ts
lines 302-315): start a new `StringBlock`/`Call` member when there is no
open member, else merge into the open member (newline-join for strings,
argument append for calls); a word after an open group member is the
token-after-block error. -/
def pushWord (isStr : Bool) (s : Str) (g : GState) : Except PErr GState :=
  if g.blocks.isEmpty || (lastRight g.blocks).isSome then
    .ok (appendBlock g (if isStr then Block.strB s none none else Block.call s [] none none))
  else
    match g.blocks.getLast? with
    | none => .error .tokenAfterBlock
    | some b =>
      match b with
      | .strB s0 l r =>
        .ok { g with blocks := g.blocks.dropLast ++ [Block.strB (s0 ++ '\n' :: s) l r] }
      | .call n a l r =>
        .ok { g with blocks := g.blocks.dropLast ++ [Block.call n (a ++ [s]) l r] }
      | .branch .. => .error .tokenAfterBlock

/-- The parser loop (src/index.ts lines 240-330).  Brace spans are
parsed by recursion on the sliced token range exactly as the source
does; the source's `stack` never grows (brace opens are handled by the
recursive slice), so a close brace reaching the loop is always the
top-level-close error and the `stack.pop` arm is dead code.  Recursion
is fueled; `parseTokens` supplies enough fuel for any input. -/
def parseGo : Nat → List Token → GState → Except PErr GState
  | 0, _, _ => .error .outOfFuel
  | _ + 1, [], g => borderCheck g
  | fuel + 1, .bracketT s :: ts, g =>
    if g.blocks.length ≥ 1 ∧ lastRight g.blocks = none then .error .tokenAfterBlock
    else if s = "\x7b".toList then
      match findClose ts 0 with
      | none => .error .unterminatedBlock
      | some (inside, rest) =>
        if inside = [] then .error .emptyBlock
        else
          match parseGo fuel inside ⟨[], none⟩ with
          | .error e => .error e
          | .ok sub =>
            parseGo fuel rest (appendBlock g (Block.branch sub.blocks sub.inner none none))
    else .error .topLevelClose
  | fuel + 1, .arrowT s :: ts, g =>
    if g.blocks.isEmpty then
      if g.inner ≠ none then .error .arrowAfterArrow
      else parseGo fuel ts { g with inner := some (parseArrow s) }
    else
      if lastRight g.blocks ≠ none then .error .arrowAfterArrow
      else parseGo fuel ts { g with blocks := setLastRight g.blocks (parseArrow s) }
  | fuel + 1, .stringT s :: ts, g =>
    match pushWord true s g with
    | .error e => .error e
    | .ok g' => parseGo fuel ts g'
  | fuel + 1, .instanceT s :: ts, g =>
    match pushWord false s g with
    | .error e => .error e
    | .ok g' => parseGo fuel ts g'

/-- `parse(tokens)` on the top-level group, with ample fuel. -/
def parseTokens (toks : List Token) : Except PErr GState :=
  parseGo (toks.length + 1) toks ⟨[], none⟩

/-- The top-level arrow restriction of `sendhelp` (src/index.ts lines
612-613).  The source also tests `file.left` and `file.right`, but the
parser never assigns borders on the root group (only `append` sets
borders, and only on members), so only the root's inner descriptor and
the last member's right border can fire this check. -/
def topLevelBad (g : GState) : Bool :=
  g.inner.isSome || (!g.blocks.isEmpty && (lastRight g.blocks).isSome)

/-- Parse followed by the top-level arrow restriction — everything
`sendhelp` does before launching the entry processes (src/index.ts
lines 610-613). -/
def sendhelpCheck (toks : List Token) : Except PErr GState :=
  match parseTokens toks with
  | .error e => .error e
  | .ok g => if topLevelBad g then .error .topLevelArrows else .ok g

/-! ## Entry points (src/index.ts lines 68-92) -/

/-- The skip test of `beginBlockIndex`: a border arrow disqualifies a
member when `arrow[0] % 2 != i` (`i` = 0 for the left border, 1 for the
right) and `~~(arrow[0] / 2) != 1`. -/
def beginArrowBlocks (a : Option Arrow) (i : Nat) : Bool :=
  match a with
  | none => false
  | some ar => (ar.typ % 2 != i) && (ar.typ / 2 != 1)

/-- `beginBlocks`: the members at the qualifying indices, in order — an
order-preserving filter of the member list. -/
def beginBlocks (bs : List Block) : List Block :=
  bs.filter (fun b => !(beginArrowBlocks b.leftArrow 0 || beginArrowBlocks b.rightArrow 1))

/-! ## Move resolution of the execution engine (src/index.ts lines 506-599) -/

/-- The move decision a step resolves to.  `forkJoin sl sr` launches two
joined child tasks at the signed offsets `sl` (from the left arrow) and
`sr` (from the right arrow), awaits both, merges their per-group output
mappings into the parent's, and terminates the parent (src/index.ts
lines 566-577).  `desyncMove s d m` fires a detached, never-awaited task
carrying stream copy `s` at offset `d` with no terminal scope
(`desyncOf`, lines 390-397, called without `await` at line 545) and then
moves the current task by `m` (the fall-through into the one-edge case,
lines 546-555).  `move m` moves the current task by `m`; `exitEnd` ends
the task, returning its per-group output mapping. -/
inductive StepAction where
  | exitEnd
  | move (shift : Int)
  | forkJoin (leftShift rightShift : Int)
  | desyncMove (detachedStream : Str) (detachShift moveShift : Int)
deriving DecidableEq, Repr

/-- Whether the action fires a detached (desynchronized) task. -/
def StepAction.isDesync : StepAction → Bool
  | .desyncMove .. => true
  | _ => false

/-- The branch of `run` for a node whose own borders carry two outward
edges — a left border pointing left and a right border pointing right
(src/index.ts lines 560-599).  Equal dash counts fork with child offsets
`+left[2]` and `-right[2]` (the dash counts, the left arrow's child sent
rightward); unequal dash counts move the task by
`m * [left, right][(m+1)/2][1]` where
`m = (left[2] > right[2] ? -1 : 1) * (stream == 'true' ? 1 : -1)`.
This is that `m` (src/index.ts line 579). -/
def directM (l r : Arrow) (stream : Str) : Int :=
  (if l.wt > r.wt then -1 else 1) * (if stream = "true".toList then 1 else -1)

/-- The move decision of the two-outward-edges branch described at
`directM`: fork on equal weights, else move by
`m * [left, right][(m+1)/2][1]` (src/index.ts lines 566-587). -/
def directResolve (l r : Arrow) (stream : Str) : StepAction :=
  if l.wt = r.wt then
    .forkJoin (l.wt : Int) (-(r.wt : Int))
  else
    .move (directM l r stream *
      (if directM l r stream = -1 then (l.mag : Int) else (r.mag : Int)))

/-- A `points` entry (src/index.ts lines 524-526): a border arrow whose
direction bit matches its side (`arrow[0] % 2 == i`) becomes the pair
`[arrow[1] * (i * 2 - 1), arrow[2]]` — signed magnitude and weight. -/
def pointOf (a : Option Arrow) (i : Nat) : Option (Int × Nat) :=
  match a with
  | none => none
  | some ar =>
    if ar.typ % 2 = i then some ((ar.mag : Int) * (2 * (i : Int) - 1), ar.wt) else none

/-- The branch of `run` taken when the current node has no outward edge
of its own: after the walk up to an ancestor exposing an outward edge,
the decision is this function of that ancestor's borders and the stream
(src/index.ts lines 523-557).  With two outward edges of unequal weight
the signed magnitude of the chosen edge is followed; with equal weights
a detached task carrying a copy of the stream is fired via `desyncOf` at
offset `points[0][1]` — the left edge's dash count — and, by the
fall-through into the one-edge case, the task itself also moves by
`points[0][1]`.  With exactly one outward edge the task moves by
`points[0][1]`, that edge's dash count.  (The pending per-group output
these cases splice onto the stream does not enter the decision and is
not part of the action.) -/
def ancestorResolve (l r : Option Arrow) (stream : Str) : StepAction :=
  match (pointOf l 0 :: pointOf r 1 :: []).filterMap id with
  | [] => .exitEnd
  | [p] => .move (p.2 : Int)
  | p :: q :: _ =>
    if p.2 ≠ q.2 then
      .move
        (if ((if p.2 > q.2 then -1 else (1 : Int)) *
              (if stream = "true".toList then 1 else -1)) > 0
          then q.1 else p.1)
    else .desyncMove stream (p.2 : Int) (p.2 : Int)

/-! ## Batch execution of arrow-free straight-line programs -/

/-- Whether a token is an arrow token. -/
def Token.isArrow : Token → Bool
  | .arrowT _ => true
  | _ => false

/-- One leaf block's effect on the task state: the `Call` dispatch or
the `StringBlock` append of a step (src/index.ts lines 442-504).  `none`
for a group cursor, whose concurrent sub-spawn semantics (lines 436-441)
lies outside the fragment modelled here. -/
def execLeaf (inputFn : Str → Str) (top : Bool) (b : Block) (st : ProcState) :
    Option (Except PErr ProcState) :=
  match b with
  | .call n a _ _ => some (execCall inputFn top n a st)
  | .strB s _ _ => some (.ok { st with stream := st.stream ++ s })
  | .branch .. => none

/-- The initial task state of a run: empty stream (`beginStream`), empty
shared storage, nothing printed. -/
def initState : ProcState := ⟨[], [], [], []⟩

/-- Strict left-to-right fold of the member effects over a single
threaded stream — the sequential reference semantics the refinement
property compares execution against. -/
def seqFold (inputFn : Str → Str) : List Block → ProcState → Option (Except PErr ProcState)
  | [], st => some (.ok st)
  | b :: bs, st =>
    match execLeaf inputFn true b st with
    | none => none
    | some (.error e) => some (.error e)
    | some (.ok st') => seqFold inputFn bs st'

/-- Batch-mode launch of the shuffled begin blocks (src/index.ts lines
616-624), modelled for the arrow-free fragment.  With no launched task,
the live-task counter returns to zero immediately and the output is
empty.  With exactly one launched task whose cursor is a border-less
leaf, the task executes its block once and terminates — its walk-up loop
(lines 512-521) stops immediately because `endingBlock` is the cursor's
parent — so the run's output is that single effect's output.  Two or
more tasks would interleave cooperatively; that scheduling lies outside
the modelled fragment (`none`); the refinement theorem shows the
fragment covers every arrow-free straight-line program. -/
def engineRun (inputFn : Str → Str) (launched : List Block) : Option (Except PErr Str) :=
  match launched with
  | [] => some (.ok [])
  | [b] =>
    if b.leftArrow = none ∧ b.rightArrow = none ∧ b.isLeaf then
      match execLeaf inputFn true b initState with
      | none => none
      | some (.error e) => some (.error e)
      | some (.ok st) => some (.ok st.output)
    else none
  | _ => none

/-! ## Properties of the newline split/join model -/

theorem splitNl_ne_nil (s : Str) : splitNl s ≠ [] := by
  cases s with
  | nil => simp [splitNl]
  | cons c cs =>
    simp only [splitNl]
    split
    · simp
    · split <;> simp

theorem splitNl_no_nl (s : Str) (h : '\n' ∉ s) : splitNl s = [s] := by
  induction s with
  | nil => rfl
  | cons c cs ih =>
    simp only [List.mem_cons, not_or] at h
    have hc : ¬ (c = '\n') := fun hceq => h.1 hceq.symm
    simp only [splitNl, if_neg hc, ih h.2]

theorem joinNl_splitNl (s : Str) : joinNl (splitNl s) = s := by
  induction s with
  | nil => rfl
  | cons c cs ih =>
    by_cases hc : c = '\n'
    · subst hc
      simp only [splitNl, if_pos rfl]
      cases hsp : splitNl cs with
      | nil => exact absurd hsp (splitNl_ne_nil cs)
      | cons h t =>
        rw [hsp] at ih
        show '\n' :: joinNl (h :: t) = '\n' :: cs
        exact congrArg (List.cons '\n') ih
    · simp only [splitNl, if_neg hc]
      cases hsp : splitNl cs with
      | nil => exact absurd hsp (splitNl_ne_nil cs)
      | cons h t =>
        rw [hsp] at ih
        cases t with
        | nil =>
          show c :: h = c :: cs
          exact congrArg (List.cons c) ih
        | cons t1 ts =>
          show (c :: h) ++ '\n' :: joinNl (t1 :: ts) = c :: cs
          rw [List.cons_append, ← ih]
          rfl

theorem splitNl_append_nl (s v : Str) (hv : '\n' ∉ v) :
    splitNl (s ++ '\n' :: v) = splitNl s ++ [v] := by
  induction s with
  | nil => simp [splitNl, splitNl_no_nl v hv]
  | cons c cs ih =>
    by_cases hc : c = '\n'
    · subst hc
      simp [List.cons_append, splitNl, List.append_eq, ih]
    · simp only [List.cons_append, splitNl, if_neg hc, List.append_eq, ih]
      cases hsp : splitNl cs with
      | nil => exact absurd hsp (splitNl_ne_nil cs)
      | cons h t => rfl

/-! ## Claim C6: the arrow decoder -/

/-- C6: for every well-formed arrow glyph run, `parseArrow` yields a
descriptor whose magnitude equals the count of non-dash glyphs, whose
weight equals the count of dash glyphs, whose direction bit is
toward-left (0) exactly when the run contains `<`, and whose action bit
is send (0) exactly when the magnitude is 1.  `parseArrow` is a total
function, so decoding never fails. -/
theorem c6_parseArrow_decodes (glyphs : Str) (_hwf : WfArrowRun glyphs) :
    (parseArrow glyphs).mag = (glyphs.filter (· ≠ '-')).length ∧
    (parseArrow glyphs).wt = (glyphs.filter (· = '-')).length ∧
    ((parseArrow glyphs).typ % 2 = 0 ↔ glyphs.contains '<' = true) ∧
    ((parseArrow glyphs).typ / 2 = 0 ↔ (parseArrow glyphs).mag = 1) := by
  refine ⟨rfl, rfl, ?_, ?_⟩ <;>
    · unfold parseArrow
      dsimp only
      split_ifs with h1 h2 <;> simp_all

/-- C6 witness: the run `<--` decodes to magnitude 1, weight 2,
direction left, mode send. -/
theorem c6_witness :
    WfArrowRun "<--".toList ∧ parseArrow "<--".toList = ⟨0, 1, 2⟩ ∧
    ((parseArrow "<--".toList).typ % 2 = 0 ↔ "<--".toList.contains '<' = true) ∧
    ((parseArrow "<--".toList).typ / 2 = 0 ↔ (parseArrow "<--".toList).mag = 1) :=
  ⟨Or.inl ⟨1, 2, by decide, by decide⟩, by decide,
    (c6_parseArrow_decodes "<--".toList (Or.inl ⟨1, 2, by decide, by decide⟩)).2.2⟩

/-! ## Claim C1: dominance between two outward edges of unequal weight -/

/-- The movement claim C1 predicts at a node with two outward edges of
unequal weight: the lower-weight edge is followed exactly when the
stream is `"true"`, by that edge's magnitude in its direction. -/
def claimC1Move (l r : Arrow) (stream : Str) : Prop :=
  directResolve l r stream =
    .move (if (stream = "true".toList) ↔ (l.wt < r.wt)
      then -(l.mag : Int) else (r.mag : Int))

/-- C1 counterexample: left border arrow `<<-----` (magnitude 2,
weight 5), right border arrow `--->>` (magnitude 2, weight 3), stream
exactly `"true"`: the claim predicts a move of +2 along the lower-weight
right edge, but the code moves -2 along the higher-weight left edge. -/
theorem c1_counterexample : ¬ claimC1Move ⟨2, 2, 5⟩ ⟨3, 2, 3⟩ "true".toList := by
  unfold claimC1Move
  decide

/-- C1 amended: with two outward edges of unequal weight — whether at
the node's own borders or at the ancestor the walk-up resumes from — the
edge with the HIGHER weight is dominant exactly when the stream is
`"true"` (otherwise the lower-weight edge dominates), and the task moves
by the dominant edge's magnitude in that edge's direction. -/
theorem c1_amended (l r : Arrow) (stream : Str)
    (hw : l.wt ≠ r.wt) (hl : l.typ % 2 = 0) (hr : r.typ % 2 = 1) :
    (stream = "true".toList →
      directResolve l r stream =
        .move (if r.wt < l.wt then -(l.mag : Int) else (r.mag : Int)) ∧
      ancestorResolve (some l) (some r) stream =
        .move (if r.wt < l.wt then -(l.mag : Int) else (r.mag : Int))) ∧
    (stream ≠ "true".toList →
      directResolve l r stream =
        .move (if l.wt < r.wt then -(l.mag : Int) else (r.mag : Int)) ∧
      ancestorResolve (some l) (some r) stream =
        .move (if l.wt < r.wt then -(l.mag : Int) else (r.mag : Int))) := by
  have hps : (pointOf (some l) 0 :: pointOf (some r) 1 :: []).filterMap id =
      [(-(l.mag : Int), l.wt), ((r.mag : Int), r.wt)] := by
    simp [pointOf, hl, hr]
  constructor
  · intro hst
    rcases Nat.lt_or_ge l.wt r.wt with hlt | hge
    · have hngt : ¬ l.wt > r.wt := by omega
      have hnrl : ¬ r.wt < l.wt := by omega
      have hm : directM l r stream = 1 := by simp [directM, hst, hngt]
      constructor
      · rw [directResolve, if_neg hw, hm, if_neg hnrl]
        norm_num
      · rw [ancestorResolve, hps]
        simp only [ne_eq, hw, not_false_iff, if_true, hst, if_pos, hngt, if_false, hnrl]
        norm_num [hngt, hnrl]
    · have hgt : l.wt > r.wt := by omega
      have hrl : r.wt < l.wt := hgt
      have hm : directM l r stream = -1 := by simp [directM, hst, hgt]
      constructor
      · rw [directResolve, if_neg hw, hm, if_pos hrl]
        norm_num
      · rw [ancestorResolve, hps]
        norm_num [hw, hst, hgt, hrl]
  · intro hst
    have hstif : (if stream = "true".toList then (1 : Int) else -1) = -1 := if_neg hst
    rcases Nat.lt_or_ge l.wt r.wt with hlt | hge
    · have hngt : ¬ l.wt > r.wt := by omega
      have hm : directM l r stream = -1 := by
        unfold directM
        rw [if_neg hngt, hstif]
        norm_num
      constructor
      · rw [directResolve, if_neg hw, hm, if_pos hlt]
        norm_num
      · rw [ancestorResolve, hps]
        dsimp only
        rw [if_pos hw, if_neg hngt, hstif, if_pos hlt]
        norm_num
    · have hgt : l.wt > r.wt := by omega
      have hnlr : ¬ l.wt < r.wt := by omega
      have hm : directM l r stream = 1 := by
        unfold directM
        rw [if_pos hgt, hstif]
        norm_num
      constructor
      · rw [directResolve, if_neg hw, hm, if_neg hnlr]
        norm_num
      · rw [ancestorResolve, hps]
        dsimp only
        rw [if_pos hw, if_pos hgt, hstif, if_neg hnlr]
        norm_num

/-- C1 witness: at left `<<-----`, right `--->>` with stream `"true"`
the code follows the higher-weight left edge, moving -2, in both code
paths. -/
theorem c1_witness :
    (⟨2, 2, 5⟩ : Arrow).wt ≠ (⟨3, 2, 3⟩ : Arrow).wt ∧
    directResolve ⟨2, 2, 5⟩ ⟨3, 2, 3⟩ "true".toList = .move (-2) ∧
    ancestorResolve (some ⟨2, 2, 5⟩) (some ⟨3, 2, 3⟩) "true".toList = .move (-2) := by
  have h := (c1_amended ⟨2, 2, 5⟩ ⟨3, 2, 3⟩ "true".toList (by decide) (by decide)
    (by decide)).1 rfl
  exact ⟨by decide, by simpa using h.1, by simpa using h.2⟩

/-! ## Claim C2: the equal-weight fork -/

/-- The fork claim C2 predicts at equal weights: the left-edge child
walks the left edge's magnitude toward the left, the right-edge child
the right edge's magnitude toward the right. -/
def claimC2Fork (l r : Arrow) (stream : Str) : Prop :=
  directResolve l r stream = .forkJoin (-(l.mag : Int)) (r.mag : Int)

/-- C2 counterexample: left border `<<-` (magnitude 2, weight 1), right
border `->>>` (magnitude 3, weight 1): the claim predicts child offsets
(-2, +3), but the code launches the children at offsets (+1, -1) — the
common dash count, with the directions swapped. -/
theorem c2_counterexample :
    ¬ claimC2Fork ⟨2, 2, 1⟩ ⟨3, 3, 1⟩ [] ∧
    directResolve ⟨2, 2, 1⟩ ⟨3, 3, 1⟩ [] = .forkJoin 1 (-1) := by
  unfold claimC2Fork
  decide

/-- C2 amended: when a block's left and right borders carry outward
edges of equal weight the engine forks into two joined child tasks, but
their walks use the edges' weights (dash counts), not their magnitudes,
and in swapped directions: the left edge's child departs by the common
weight toward the RIGHT, the right edge's child by the common weight
toward the LEFT.  The parent awaits both, merges their per-group output
mappings into its own, and terminates (the meaning of `forkJoin`). -/
theorem c2_amended (l r : Arrow) (stream : Str) (hw : l.wt = r.wt) :
    directResolve l r stream = .forkJoin (l.wt : Int) (-(r.wt : Int)) := by
  rw [directResolve, if_pos hw]

/-- C2 witness: at left `<<-`, right `->>>` the fork offsets are
(+1, -1). -/
theorem c2_witness :
    (⟨2, 2, 1⟩ : Arrow).wt = (⟨3, 3, 1⟩ : Arrow).wt ∧
    directResolve ⟨2, 2, 1⟩ ⟨3, 3, 1⟩ [] = .forkJoin 1 (-1) := by
  have h := c2_amended ⟨2, 2, 1⟩ ⟨3, 3, 1⟩ [] (by decide)
  exact ⟨by decide, by simpa using h⟩

/-! ## Claim C3: when a detached (desynchronized) task is fired -/

/-- C3 counterexample: a node whose own borders carry two outward edges
of unequal weight (5 vs 3) but equal magnitude (2 and 2): the claim
predicts the non-dominant edge is launched as a detached task, but the
code resolves a plain move with no detached task. -/
theorem c3_counterexample :
    (⟨2, 2, 5⟩ : Arrow).mag = (⟨3, 2, 3⟩ : Arrow).mag ∧
    (⟨2, 2, 5⟩ : Arrow).wt ≠ (⟨3, 2, 3⟩ : Arrow).wt ∧
    (directResolve ⟨2, 2, 5⟩ ⟨3, 2, 3⟩ "x".toList).isDesync = false ∧
    directResolve ⟨2, 2, 5⟩ ⟨3, 2, 3⟩ "x".toList = .move 2 := by
  decide

/-- C3 amended: at a node whose own borders carry two outward edges of
unequal weight, no detached task is ever fired — whatever the
magnitudes — and the task simply continues along the dominant edge.  A
detached task (carrying a copy of the current stream, unscoped and never
joined) is fired only on the ancestor-resume path when the two outward
edges found there have EQUAL weights: it starts at an offset equal to
the common weight, and the current task then also moves by that same
offset. -/
theorem c3_amended (l r : Arrow) (stream : Str) :
    (l.wt ≠ r.wt → (directResolve l r stream).isDesync = false ∧
      directResolve l r stream =
        .move (directM l r stream *
          (if directM l r stream = -1 then (l.mag : Int) else (r.mag : Int)))) ∧
    (l.typ % 2 = 0 → r.typ % 2 = 1 → l.wt = r.wt →
      ancestorResolve (some l) (some r) stream =
        .desyncMove stream (l.wt : Int) (l.wt : Int)) := by
  constructor
  · intro hw
    have h : directResolve l r stream =
        .move (directM l r stream *
          (if directM l r stream = -1 then (l.mag : Int) else (r.mag : Int))) := by
      rw [directResolve, if_neg hw]
    exact ⟨by rw [h]; rfl, h⟩
  · intro hl hr hw
    have hps : (pointOf (some l) 0 :: pointOf (some r) 1 :: []).filterMap id =
        [(-(l.mag : Int), l.wt), ((r.mag : Int), r.wt)] := by
      simp [pointOf, hl, hr]
    rw [ancestorResolve, hps]
    dsimp only
    rw [if_neg (by simpa using hw)]

/-- C3 witness: unequal weights at the node itself yield a plain move;
equal weights on the ancestor-resume path yield a detached task at the
common weight plus the same move. -/
theorem c3_witness :
    (directResolve ⟨2, 2, 5⟩ ⟨3, 2, 3⟩ "s".toList).isDesync = false ∧
    ancestorResolve (some ⟨2, 1, 4⟩) (some ⟨3, 5, 4⟩) "s".toList =
      .desyncMove "s".toList 4 4 :=
  ⟨((c3_amended ⟨2, 2, 5⟩ ⟨3, 2, 3⟩ "s".toList).1 (by decide)).1,
    (c3_amended ⟨2, 1, 4⟩ ⟨3, 5, 4⟩ "s".toList).2 (by decide) (by decide) (by decide)⟩

/-! ## Claim C9: the `div` built-in -/

/-- C9 counterexample: stream `"5"`, no arguments: the divisor defaults
to 0 and the code produces the text `Infinity`, not the `NaN` the claim
promises for a computation failure. -/
theorem c9_counterexample :
    execCall (fun s => s) true "div".toList [] ⟨"5".toList, [], [], []⟩ =
      .ok ⟨"Infinity".toList, [], [], []⟩ ∧
    "Infinity".toList ≠ "NaN".toList := by
  constructor
  · rfl
  · decide

/-- C9 amended: `div` replaces the stream with the textual result of the
IEEE division of the stream (coerced by `Number`) by `arguments[0] || 0`.
Dividing a nonzero finite number by the zero divisor yields the text
`Infinity` or `-Infinity` according to sign; the text `NaN` appears only
for an invalid operation (zero over zero, or a stream that does not
parse as a number), and the source's catch branch that would produce
`NaN` on a thrown error is unreachable because the division never
throws. -/
theorem c9_amended (inputFn : Str → Str) (top : Bool) (args : List Str)
    (st : ProcState) (q : ℚ)
    (hs : jsNumber st.stream = .fin q) (hd : divisorNum args = .fin 0) :
    execCall inputFn top "div".toList args st =
      .ok { st with stream :=
        if q = 0 then "NaN".toList
        else if q < 0 then "-Infinity".toList else "Infinity".toList } := by
  unfold execCall
  rw [if_neg (by decide), if_neg (by decide), if_neg (by decide), if_neg (by decide),
    if_pos rfl, hs, hd]
  by_cases h0 : q = 0
  · subst h0
    simp [jsDiv, jsString]
  · by_cases hneg : q < 0
    · simp [jsDiv, jsString, h0, hneg]
    · simp [jsDiv, jsString, h0, hneg]

/-- C9 witness: stream `"5"` with no arguments divides 5 by 0 and
produces `Infinity`. -/
theorem c9_witness :
    jsNumber "5".toList = .fin 5 ∧ divisorNum [] = .fin 0 ∧
    execCall (fun s => s) true "div".toList [] ⟨"5".toList, [], [], []⟩ =
      .ok ⟨"Infinity".toList, [], [], []⟩ := by
  refine ⟨by decide, by decide, ?_⟩
  have h := c9_amended (fun s => s) true [] ⟨"5".toList, [], [], []⟩ 5
    (by decide) (by decide)
  simpa using h

/-! ## Claim C10: unrecognized calls are silent no-ops -/

/-- C10: the extension registry starts empty and `extend` registers
nothing, so a `Call` whose name is none of the built-in commands leaves
the task's stream, the shared global storage, the program output and the
per-group output mapping unchanged, and the fatal
extension-handler-error path can never be taken. -/
theorem c10_unrecognized_noop :
    extensions = [] ∧ extend = () ∧
    ∀ (inputFn : Str → Str) (top : Bool) (name : Str) (args : List Str)
      (st : ProcState), name ∉ builtinNames →
      execCall inputFn top name args st = .ok st := by
  refine ⟨rfl, rfl, ?_⟩
  intro inputFn top name args st h
  simp only [builtinNames, List.mem_cons, List.not_mem_nil, or_false, not_or] at h
  obtain ⟨h1, h2, h3, h4, h5, h6, h7, h8, h9, h10⟩ := h
  unfold execCall
  rw [if_neg h1, if_neg h2, if_neg h3, if_neg h4, if_neg h5, if_neg h6, if_neg h7,
    if_neg h8, if_neg h9, if_neg h10]
  rfl

/-- C10 witness: the call `frobnicate` is a no-op on the initial state. -/
theorem c10_witness :
    "frobnicate".toList ∉ builtinNames ∧
    execCall (fun s => s) true "frobnicate".toList [] initState = .ok initState :=
  ⟨by decide, c10_unrecognized_noop.2.2 (fun s => s) true "frobnicate".toList []
    initState (by decide)⟩

/-! ## Claim C8: the `loop` / `pop` round-trip -/

/-- C8 counterexample: pushing the value `"a\nb"` — a stream containing
a newline — and popping yields only `"b"`, because the storage is a
newline-delimited flat string. -/
theorem c8_counterexample :
    execCall (fun s => s) true "loop".toList [] ⟨"a\nb".toList, [], [], []⟩ =
      .ok ⟨"a\nb".toList, "\na\nb".toList, [], []⟩ ∧
    execCall (fun s => s) true "pop".toList [] ⟨"a\nb".toList, "\na\nb".toList, [], []⟩ =
      .ok ⟨"b".toList, "\na".toList, [], []⟩ ∧
    "b".toList ≠ "a\nb".toList := by
  refine ⟨rfl, by rfl, by decide⟩

/-- C8 amended: for every text value `v` containing no newline
character, pushing `v` with `loop` (no arguments) and then popping with
`pop`, with no other storage operation in between, yields exactly `v` as
the new stream and restores the storage to its previous contents.  (For
`v` containing a newline, `pop` returns only the part after the last
newline.) -/
theorem c8_amended (inputFn : Str → Str) (stg out pnd v : Str) (hv : '\n' ∉ v) :
    execCall inputFn true "loop".toList [] ⟨v, stg, out, pnd⟩ =
      .ok ⟨v, stg ++ '\n' :: v, out, pnd⟩ ∧
    execCall inputFn true "pop".toList [] ⟨v, stg ++ '\n' :: v, out, pnd⟩ =
      .ok ⟨v, stg, out, pnd⟩ := by
  constructor
  · unfold execCall
    rw [if_neg (by decide), if_neg (by decide), if_neg (by decide), if_neg (by decide),
      if_neg (by decide), if_neg (by decide), if_pos rfl]
    rfl
  · unfold execCall
    rw [if_neg (by decide), if_neg (by decide), if_neg (by decide), if_neg (by decide),
      if_neg (by decide), if_neg (by decide), if_neg (by decide), if_pos rfl]
    dsimp only
    rw [splitNl_append_nl stg v hv, List.getLast?_concat, List.dropLast_concat,
      joinNl_splitNl]
    rfl

/-- C8 witness: pushing `"x"` onto storage `"s"` and popping returns
`"x"` and restores the storage. -/
theorem c8_witness :
    '\n' ∉ "x".toList ∧
    execCall (fun s => s) true "loop".toList [] ⟨"x".toList, "s".toList, [], []⟩ =
      .ok ⟨"x".toList, "s\nx".toList, [], []⟩ ∧
    execCall (fun s => s) true "pop".toList [] ⟨"x".toList, "s\nx".toList, [], []⟩ =
      .ok ⟨"x".toList, "s".toList, [], []⟩ := by
  have h := c8_amended (fun s => s) "s".toList [] [] "x".toList (by decide)
  exact ⟨by decide, by simpa using h.1, by simpa using h.2⟩

/-- The fraction-free rendering of the border mode test agrees with the
source's rational-division form `(typ || 2) / 2 < 0.7`. -/
theorem nonJumpTest_eq_ratTest (a : Option Arrow) :
    nonJumpTest a = true ↔ ((jsOrTyp a 2 : ℚ) / 2 < 7 / 10) := by
  unfold nonJumpTest
  rw [div_lt_div_iff₀ (by norm_num) (by norm_num)]
  constructor
  · intro h
    have h' : 10 * jsOrTyp a 2 < 14 := by simpa using h
    have h2 : ((10 * jsOrTyp a 2 : ℕ) : ℚ) < ((14 : ℕ) : ℚ) := Nat.cast_lt.mpr h'
    push_cast at h2
    linarith
  · intro h
    have h2 : ((10 * jsOrTyp a 2 : ℕ) : ℚ) < ((14 : ℕ) : ℚ) := by push_cast; linarith
    have h3 : 10 * jsOrTyp a 2 < 14 := by exact_mod_cast h2
    simpa using h3

/-! ## Claim C4: the top-level arrow restriction -/

/-- C4 counterexample: the program `a -> b` — an arrow on the border
between two top-level members — parses successfully and passes the
top-level arrow check, although the claim says a program with an arrow
on any top-level member's border is rejected.  The resulting tree
carries the arrow on the first member's right border (shared as the
second member's left border). -/
theorem c4_counterexample :
    sendhelpCheck [Token.instanceT "a".toList, Token.arrowT "->".toList,
        Token.instanceT "b".toList] =
      .ok ⟨[Block.call "a".toList [] none (some ⟨1, 1, 1⟩),
            Block.call "b".toList [] (some ⟨1, 1, 1⟩) none], none⟩ := by
  rfl

/-- The top-level check fires exactly when the root's inner descriptor
or its last member's right border is present. -/
theorem topLevelBad_iff (g : GState) :
    topLevelBad g = true ↔
      ¬ (g.inner = none ∧ (g.blocks = [] ∨ lastRight g.blocks = none)) := by
  unfold topLevelBad
  rw [not_and_or, not_or]
  simp [Option.isSome_iff_ne_none, List.isEmpty_iff]

/-- C4 amended: the top-level restriction checks only the root group's
own descriptor slots and the LAST member's right border: a successfully
parsed program is rejected with the top-level-arrow error exactly when
the root's inner descriptor is set or its last member's right border is
set; arrows on the borders between interior top-level members are
accepted.  (The source also tests the root's own left/right borders, but
the parser never assigns them.) -/
theorem c4_amended (toks : List Token) (g : GState)
    (hok : parseTokens toks = .ok g) :
    (sendhelpCheck toks = .ok g ↔
      g.inner = none ∧ (g.blocks = [] ∨ lastRight g.blocks = none)) ∧
    (¬ (g.inner = none ∧ (g.blocks = [] ∨ lastRight g.blocks = none)) →
      sendhelpCheck toks = .error .topLevelArrows) := by
  have hbad := topLevelBad_iff g
  have hstep : sendhelpCheck toks =
      if topLevelBad g then .error .topLevelArrows else .ok g := by
    unfold sendhelpCheck
    rw [hok]
  by_cases hb : topLevelBad g = true
  · rw [hstep, if_pos hb]
    have hno := hbad.mp hb
    exact ⟨⟨fun h => Except.noConfusion h, fun h => absurd h hno⟩, fun _ => rfl⟩
  · rw [hstep, if_neg hb]
    have hyes : g.inner = none ∧ (g.blocks = [] ∨ lastRight g.blocks = none) := by
      by_contra hc
      exact hb (hbad.mpr hc)
    exact ⟨⟨fun _ => hyes, fun _ => rfl⟩, fun h => absurd hyes h⟩

/-- C4 witness: `a -> b` parses and is accepted by the top-level check
even though its interior border carries an arrow. -/
theorem c4_witness :
    parseTokens [Token.instanceT "a".toList, Token.arrowT "->".toList,
        Token.instanceT "b".toList] =
      .ok ⟨[Block.call "a".toList [] none (some ⟨1, 1, 1⟩),
            Block.call "b".toList [] (some ⟨1, 1, 1⟩) none], none⟩ ∧
    sendhelpCheck [Token.instanceT "a".toList, Token.arrowT "->".toList,
        Token.instanceT "b".toList] =
      .ok ⟨[Block.call "a".toList [] none (some ⟨1, 1, 1⟩),
            Block.call "b".toList [] (some ⟨1, 1, 1⟩) none], none⟩ :=
  ⟨rfl,
    (c4_amended
        [Token.instanceT "a".toList, Token.arrowT "->".toList,
          Token.instanceT "b".toList]
        ⟨[Block.call "a".toList [] none (some ⟨1, 1, 1⟩),
          Block.call "b".toList [] (some ⟨1, 1, 1⟩) none], none⟩
        rfl).1.mpr ⟨rfl, Or.inr (by decide)⟩⟩

/-! ## Claim C5: boundary validation of send-mode and wrong-direction
arrows -/

/-- C5 (code bug): the boundary validation spells its tests as JS
`(typ || 2) / 2 < 0.7`, `(typ || 0) % 2 == 1` and `(typ || 1) % 2 == 0`,
and the number 0 — the type of a LEFT-SEND arrow — is falsy in JS, so a
left-send arrow at either group boundary is treated like an absent
border and accepted.  The program `{<- a}` puts a send-mode descriptor
on the inner group's first member's left border, and `{a <-}` puts a
send-mode, wrong-direction descriptor on its last member's right border;
the claim (and the source's own panic message `Non-jump arrow at block
border`) require both to be structural errors, yet both parse
successfully. -/
theorem c5_boundary_left_send_accepted :
    sendhelpCheck [Token.bracketT "\x7b".toList, Token.arrowT "<-".toList,
        Token.instanceT "a".toList, Token.bracketT "\x7d".toList] =
      .ok ⟨[Block.branch [Block.call "a".toList [] (some ⟨0, 1, 1⟩) none]
            (some ⟨0, 1, 1⟩) none none], none⟩ ∧
    sendhelpCheck [Token.bracketT "\x7b".toList, Token.instanceT "a".toList,
        Token.arrowT "<-".toList, Token.bracketT "\x7d".toList] =
      .ok ⟨[Block.branch [Block.call "a".toList [] none (some ⟨0, 1, 1⟩)]
            none none none], none⟩ ∧
    parseArrow "<-".toList = ⟨0, 1, 1⟩ ∧
    (parseArrow "<-".toList).mag = 1 ∧ (parseArrow "<-".toList).typ % 2 = 0 :=
  ⟨rfl, rfl, rfl, rfl, rfl⟩

/-! ## Claim C7: arrow-free straight-line programs run sequentially -/

/-- A successful border check returns the group unchanged. -/
theorem borderCheck_ok_eq (g res : GState) (h : borderCheck g = .ok res) :
    res = g := by
  unfold borderCheck at h
  split_ifs at h <;>
    first
      | exact Except.noConfusion h
      | (injection h with h; exact h.symm)

/-- Every token after the matching close found by `findClose` is one of
the scanned tokens. -/
theorem findClose_rest_mem :
    ∀ (ts : List Token) (level : Nat) (inside rest : List Token),
      findClose ts level = some (inside, rest) → ∀ t ∈ rest, t ∈ ts := by
  intro ts
  induction ts with
  | nil =>
    intro level inside rest h _ _
    simp [findClose] at h
  | cons t0 ts ih =>
    intro level inside rest h tt htt
    cases t0 with
    | bracketT s =>
      rw [findClose] at h
      by_cases hb : s = "\x7b".toList
      · rw [if_pos hb, Option.map_eq_some'] at h
        obtain ⟨⟨a, b⟩, hfc, hab⟩ := h
        cases hab
        exact List.mem_cons_of_mem _ (ih _ _ _ hfc tt htt)
      · rw [if_neg hb] at h
        by_cases hl : level = 0
        · rw [if_pos hl] at h
          injection h with h
          cases h
          exact List.mem_cons_of_mem _ htt
        · rw [if_neg hl, Option.map_eq_some'] at h
          obtain ⟨⟨a, b⟩, hfc, hab⟩ := h
          cases hab
          exact List.mem_cons_of_mem _ (ih _ _ _ hfc tt htt)
    | instanceT s =>
      rw [findClose, Option.map_eq_some'] at h
      · obtain ⟨⟨a, b⟩, hfc, hab⟩ := h
        cases hab
        exact List.mem_cons_of_mem _ (ih _ _ _ hfc tt htt)
      · intro s1 hcon
        exact Token.noConfusion hcon
    | stringT s =>
      rw [findClose, Option.map_eq_some'] at h
      · obtain ⟨⟨a, b⟩, hfc, hab⟩ := h
        cases hab
        exact List.mem_cons_of_mem _ (ih _ _ _ hfc tt htt)
      · intro s1 hcon
        exact Token.noConfusion hcon
    | arrowT s =>
      rw [findClose, Option.map_eq_some'] at h
      · obtain ⟨⟨a, b⟩, hfc, hab⟩ := h
        cases hab
        exact List.mem_cons_of_mem _ (ih _ _ _ hfc tt htt)
      · intro s1 hcon
        exact Token.noConfusion hcon

/-- `pushWord` preserves the arrow-free single-member invariant: under
it, a word token merges into the single open member or starts the first
member, never adding a border arrow or a second member. -/
theorem pushWord_inv (isStr : Bool) (s : Str) (g g' : GState)
    (h : pushWord isStr s g = .ok g')
    (hin : g.inner = none)
    (hbl : ∀ b ∈ g.blocks, b.leftArrow = none ∧ b.rightArrow = none)
    (hlen : g.blocks.length ≤ 1) :
    g'.inner = none ∧
    (∀ b ∈ g'.blocks, b.leftArrow = none ∧ b.rightArrow = none) ∧
    g'.blocks.length ≤ 1 := by
  unfold pushWord at h
  cases hgb : g.blocks with
  | nil =>
    rw [hgb] at h
    rw [if_pos (by simp)] at h
    injection h with h
    subst h
    unfold appendBlock
    rw [hgb]
    cases isStr <;>
      simp [Block.setLeft, hin, Block.leftArrow, Block.rightArrow]
  | cons b bs =>
    have hbs : bs = [] := by
      rw [hgb] at hlen
      simpa using hlen
    subst hbs
    obtain ⟨hl1, hr1⟩ := hbl b (by rw [hgb]; exact List.mem_cons_self _ _)
    have hlast : lastRight g.blocks = none := by
      rw [hgb]
      simp [lastRight, hr1]
    rw [hgb] at h
    rw [hgb] at hlast
    rw [if_neg (by simp [hlast])] at h
    cases b with
    | call n a l r =>
      simp only [List.getLast?_singleton] at h
      injection h with h
      subst h
      refine ⟨hin, ?_, by simp⟩
      intro b hb
      simp only [List.dropLast_single, List.nil_append, List.mem_singleton] at hb
      subst hb
      exact ⟨hl1, hr1⟩
    | strB s0 l r =>
      simp only [List.getLast?_singleton] at h
      injection h with h
      subst h
      refine ⟨hin, ?_, by simp⟩
      intro b hb
      simp only [List.dropLast_single, List.nil_append, List.mem_singleton] at hb
      subst hb
      exact ⟨hl1, hr1⟩
    | branch bs2 i l r =>
      simp only [List.getLast?_singleton] at h
      exact Except.noConfusion h

/-- The arrow-free invariant of the parser loop: parsing a token list
with no arrow tokens, starting from a group satisfying the invariant,
yields a group with no inner descriptor, no border arrow on any member,
and at most ONE member — every word token merges into the single open
member, and a second block after an open member is the token-after-block
error. -/
theorem parseGo_noArrow :
    ∀ (fuel : Nat) (toks : List Token) (g res : GState),
      (∀ t ∈ toks, t.isArrow = false) →
      parseGo fuel toks g = .ok res →
      g.inner = none →
      (∀ b ∈ g.blocks, b.leftArrow = none ∧ b.rightArrow = none) →
      g.blocks.length ≤ 1 →
      res.inner = none ∧
      (∀ b ∈ res.blocks, b.leftArrow = none ∧ b.rightArrow = none) ∧
      res.blocks.length ≤ 1 := by
  intro fuel
  induction fuel with
  | zero =>
    intro toks g res _ h _ _ _
    exact absurd h (by simp [parseGo])
  | succ fuel ih =>
    intro toks g res hna hok hin hbl hlen
    cases toks with
    | nil =>
      have hres : res = g := borderCheck_ok_eq g res hok
      subst hres
      exact ⟨hin, hbl, hlen⟩
    | cons t ts =>
      have hna' : ∀ x ∈ ts, Token.isArrow x = false :=
        fun x hx => hna x (List.mem_cons_of_mem _ hx)
      cases t with
      | arrowT s =>
        have := hna _ (List.mem_cons_self _ _)
        simp [Token.isArrow] at this
      | stringT s =>
        rw [parseGo] at hok
        cases hpw : pushWord true s g with
        | error e =>
          rw [hpw] at hok
          exact Except.noConfusion hok
        | ok g1 =>
          rw [hpw] at hok
          obtain ⟨h1, h2, h3⟩ := pushWord_inv true s g g1 hpw hin hbl hlen
          exact ih ts g1 res hna' hok h1 h2 h3
      | instanceT s =>
        rw [parseGo] at hok
        cases hpw : pushWord false s g with
        | error e =>
          rw [hpw] at hok
          exact Except.noConfusion hok
        | ok g1 =>
          rw [hpw] at hok
          obtain ⟨h1, h2, h3⟩ := pushWord_inv false s g g1 hpw hin hbl hlen
          exact ih ts g1 res hna' hok h1 h2 h3
      | bracketT s =>
        rw [parseGo] at hok
        cases hgb : g.blocks with
        | cons b bs =>
          obtain ⟨hl1, hr1⟩ := hbl b (by rw [hgb]; exact List.mem_cons_self _ _)
          have hcond : g.blocks.length ≥ 1 ∧ lastRight g.blocks = none := by
            constructor
            · rw [hgb]; simp
            · have hbs : bs = [] := by rw [hgb] at hlen; simpa using hlen
              subst hbs
              rw [hgb]
              simp [lastRight, hr1]
          rw [if_pos hcond] at hok
          exact Except.noConfusion hok
        | nil =>
          have hcond : ¬ (g.blocks.length ≥ 1 ∧ lastRight g.blocks = none) := by
            rw [hgb]
            simp
          rw [if_neg hcond] at hok
          by_cases hb : s = "\x7b".toList
          · rw [if_pos hb] at hok
            cases hfc : findClose ts 0 with
            | none =>
              rw [hfc] at hok
              exact Except.noConfusion hok
            | some p =>
              obtain ⟨inside, rest⟩ := p
              rw [hfc] at hok
              dsimp only at hok
              by_cases hins : inside = []
              · rw [if_pos hins] at hok
                exact Except.noConfusion hok
              · rw [if_neg hins] at hok
                cases hsub : parseGo fuel inside ⟨[], none⟩ with
                | error e =>
                  rw [hsub] at hok
                  exact Except.noConfusion hok
                | ok sub =>
                  rw [hsub] at hok
                  have hnarest : ∀ x ∈ rest, Token.isArrow x = false :=
                    fun x hx => hna' x (findClose_rest_mem ts 0 inside rest hfc x hx)
                  refine ih rest _ res hnarest hok ?_ ?_ ?_
                  · exact hin
                  · intro b hb2
                    unfold appendBlock at hb2
                    rw [hgb] at hb2
                    simp only [List.getLast?_nil, List.nil_append,
                      List.mem_singleton] at hb2
                    subst hb2
                    exact ⟨by simp [Block.setLeft, Block.leftArrow, hin],
                      by simp [Block.setLeft, Block.rightArrow]⟩
                  · unfold appendBlock
                    rw [hgb]
                    simp
          · rw [if_neg hb] at hok
            exact Except.noConfusion hok

/-- With no border arrows, every member qualifies as a begin block. -/
theorem beginBlocks_noArrow (bs : List Block)
    (h : ∀ b ∈ bs, b.leftArrow = none ∧ b.rightArrow = none) :
    beginBlocks bs = bs := by
  unfold beginBlocks
  apply List.filter_eq_self.mpr
  intro b hb
  obtain ⟨hl, hr⟩ := h b hb
  simp [beginArrowBlocks, hl, hr]

/-- C7: for every arrow-free program whose top level parses into a
sequence of Literal and Call blocks, batch-mode execution — launching
the begin blocks in ANY shuffled order — produces exactly the output of
the strict left-to-right sequential fold of the member effects over a
single stream: no concurrency is observable.  (The parser in fact
guarantees such a program has at most one top-level member, which is why
launching all begin blocks concurrently coincides with the fold.) -/
theorem c7_noArrow_sequential (toks : List Token) (g : GState) (inputFn : Str → Str)
    (hna : ∀ t ∈ toks, t.isArrow = false)
    (hok : sendhelpCheck toks = .ok g)
    (hleaf : ∀ b ∈ g.blocks, b.isLeaf = true)
    (launched : List Block) (hperm : launched.Perm (beginBlocks g.blocks)) :
    engineRun inputFn launched =
      (seqFold inputFn g.blocks initState).map (Except.map ProcState.output) := by
  have hpt : parseTokens toks = .ok g := by
    unfold sendhelpCheck at hok
    cases hp : parseTokens toks with
    | error e =>
      rw [hp] at hok
      exact Except.noConfusion hok
    | ok g0 =>
      rw [hp] at hok
      dsimp only at hok
      by_cases hb : topLevelBad g0 = true
      · rw [if_pos hb] at hok
        exact Except.noConfusion hok
      · rw [if_neg hb] at hok
        injection hok with h
        rw [h]
  obtain ⟨hin, hbl, hlen⟩ := parseGo_noArrow (toks.length + 1) toks ⟨[], none⟩ g
    hna hpt rfl (by simp) (by simp)
  have hbb : beginBlocks g.blocks = g.blocks := beginBlocks_noArrow _ hbl
  rw [hbb] at hperm
  cases hgb : g.blocks with
  | nil =>
    rw [hgb] at hperm
    have hl0 : launched = [] := List.perm_nil.mp hperm
    subst hl0
    rfl
  | cons b bs =>
    have hbs : bs = [] := by
      rw [hgb] at hlen
      simpa using hlen
    subst hbs
    rw [hgb] at hperm
    have hl1 : launched = [b] := List.perm_singleton.mp hperm
    subst hl1
    have hbmem : b ∈ g.blocks := by
      rw [hgb]
      exact List.mem_cons_self _ _
    obtain ⟨hbl1, hbr1⟩ := hbl b hbmem
    have hlf : b.isLeaf = true := hleaf b hbmem
    unfold engineRun seqFold
    dsimp only
    rw [if_pos ⟨hbl1, hbr1, hlf⟩]
    cases hel : execLeaf inputFn true b initState with
    | none => rfl
    | some e =>
      cases e with
      | error er => rfl
      | ok st' => rfl

/-- C7 witness: the one-member program `print yo` outputs `yo`, equal to
the sequential fold. -/
theorem c7_witness :
    sendhelpCheck [Token.instanceT "print".toList, Token.instanceT "yo".toList] =
      .ok ⟨[Block.call "print".toList ["yo".toList] none none], none⟩ ∧
    engineRun (fun s => s) [Block.call "print".toList ["yo".toList] none none] =
      some (.ok "yo".toList) ∧
    engineRun (fun s => s) [Block.call "print".toList ["yo".toList] none none] =
      (seqFold (fun s => s) [Block.call "print".toList ["yo".toList] none none]
        initState).map (Except.map ProcState.output) := by
  refine ⟨rfl, rfl, ?_⟩
  exact c7_noArrow_sequential
    [Token.instanceT "print".toList, Token.instanceT "yo".toList]
    ⟨[Block.call "print".toList ["yo".toList] none none], none⟩
    (fun s => s) (by decide) rfl (by decide)
    [Block.call "print".toList ["yo".toList] none none] (List.Perm.refl _)

end Sendhelp
